import Mathlib

/-!
# Verification of the reuler-ai retrieval/caching core

Shallow embedding, in Lean 4, of the chunking, retrieval, reranking,
deduplication, caching and response-formatting logic of the `ai-service`
of the reuler-ai repository, together with theorems settling the
specified behavioural claims.

Text is modelled as `List Char` (Python `str`), machine floats of the
confidence arithmetic as `ℚ` (only order and additive/multiplicative
structure of small decimal constants is used by the code), wall-clock
time as `Nat`, and the SQLite tables of the cache service as
association lists.
-/

namespace ReulerAI

/-! ## Python string primitives used by the chunker and the verifier -/

/-- Python whitespace characters recognised by `str.strip()` (ASCII range,
which is all the repository's code paths produce). -/
def isPyWhitespace (c : Char) : Bool :=
  c = ' ' || c = '\t' || c = '\n' || c = '\r' || c = '\x0b' || c = '\x0c'

/-- Python `str.strip()`: drop leading and trailing whitespace. -/
def pstrip (l : List Char) : List Char :=
  ((l.dropWhile isPyWhitespace).reverse.dropWhile isPyWhitespace).reverse

/-- Python slice `l[-n:]`.  Mirrors the Python quirk that `l[-0:]` is the
whole string (not the empty suffix). -/
def pyTail (n : Nat) (l : List Char) : List Char :=
  if n = 0 then l else l.drop (l.length - n)

/-- One step of Python `str.split(sep)` for a non-empty `sep`:
left-to-right scan, splitting at each non-overlapping occurrence of
`sep`.  `fuel` bounds the number of scan steps; every step consumes at
least one character, so `fuel = text.length + 1` (as supplied by
`pySplit`) is never exhausted and the fallback value is unreachable. -/
def splitFuel (sep : List Char) : Nat → List Char → List Char → List (List Char)
  | 0, text, acc => [acc.reverse ++ text]
  | _ + 1, [], acc => [acc.reverse]
  | fuel + 1, c :: rest, acc =>
    if ¬ sep.isEmpty ∧ (c :: rest).take sep.length = sep then
      acc.reverse :: splitFuel sep fuel ((c :: rest).drop sep.length) []
    else
      splitFuel sep fuel rest (c :: acc)

/-- `text.split(separator) if separator else list(text)` from
`DocumentProcessor._recursive_split`: split on a non-empty separator,
or into individual characters when the separator is empty. -/
def pySplit (sep text : List Char) : List (List Char) :=
  if sep.isEmpty then text.map (fun c => [c]) else splitFuel sep (text.length + 1) text []

/-! ## The chunker (`DocumentProcessor._recursive_split`) -/

/-- The accumulation loop of `_recursive_split` at one separator level.
`sep` is the current separator, `recurse` is the recursive splitter for
the remaining separator hierarchy (`new_separators`), `canRecurse` is
the Python truthiness of `new_separators`, and the last three arguments
are the remaining splits, the accumulated `chunks` list and the running
`current_chunk` buffer. -/
def rsLevel (cs co mcs : Nat) (sep : List Char) (recurse : List Char → List (List Char))
    (canRecurse : Bool) :
    List (List Char) → List (List Char) → List Char → List (List Char)
  | [], chunks, current =>
    -- trailing `if len(current_chunk) >= self.min_chunk_size: chunks.append(...)`
    if mcs ≤ current.length then chunks ++ [pstrip current] else chunks
  | split :: rest, chunks, current =>
    -- `piece = split + separator if separator else split`
    let piece := if sep.isEmpty then split else split ++ sep
    if cs < current.length + piece.length then
      let chunks1 := if mcs ≤ current.length then chunks ++ [pstrip current] else chunks
      if cs < piece.length ∧ canRecurse then
        rsLevel cs co mcs sep recurse canRecurse rest (chunks1 ++ recurse piece) []
      else
        -- `overlap = current_chunk[-chunk_overlap:] if len(current_chunk) > chunk_overlap
        --            else current_chunk`
        let overlap := if co < current.length then pyTail co current else current
        rsLevel cs co mcs sep recurse canRecurse rest chunks1 (overlap ++ piece)
    else
      rsLevel cs co mcs sep recurse canRecurse rest chunks (current ++ piece)

/-- `DocumentProcessor._recursive_split`, parametric in the separator
hierarchy.  The Python code never calls itself with an empty separator
list (the recursion is guarded by the truthiness of `new_separators`),
so the `[]` case is unreachable from `recursiveSplit`. -/
def rsplit (cs co mcs : Nat) : List (List Char) → List Char → List (List Char)
  | [] => fun _ => []
  | sep :: rest => fun text =>
    rsLevel cs co mcs sep (rsplit cs co mcs rest) (!rest.isEmpty) (pySplit sep text) [] []

/-- The default separator hierarchy `["\n\n", "\n", ". ", " ", ""]`. -/
def defaultSeparators : List (List Char) :=
  [['\n', '\n'], ['\n'], ['.', ' '], [' '], []]

/-- `DocumentProcessor._recursive_split(text)` with its default
separator hierarchy; `cs`, `co`, `mcs` are the processor's
`chunk_size`, `chunk_overlap` and `min_chunk_size`. -/
def recursiveSplit (cs co mcs : Nat) (text : List Char) : List (List Char) :=
  rsplit cs co mcs defaultSeparators text

/-! ## Chunker invariants -/

/-- The (amended) guarantee a returned chunk actually satisfies: its
length is at most `chunk_size + chunk_overlap`, and it is the
whitespace-strip of an accumulated buffer of length at least
`min_chunk_size`. -/
def chunkOK (cs co mcs : Nat) (c : List Char) : Prop :=
  c.length ≤ cs + co ∧ ∃ b : List Char, c = pstrip b ∧ mcs ≤ b.length

lemma length_dropWhile_le (p : Char → Bool) (l : List Char) :
    (l.dropWhile p).length ≤ l.length := by
  induction l with
  | nil => simp
  | cons a t ih =>
    by_cases h : p a
    · simp only [List.dropWhile, h]
      simp only [List.length_cons]
      omega
    · simp [List.dropWhile, h]

lemma pstrip_length_le (l : List Char) : (pstrip l).length ≤ l.length := by
  unfold pstrip
  calc ((l.dropWhile isPyWhitespace).reverse.dropWhile isPyWhitespace).reverse.length
      = ((l.dropWhile isPyWhitespace).reverse.dropWhile isPyWhitespace).length := by
        simp
    _ ≤ (l.dropWhile isPyWhitespace).reverse.length := length_dropWhile_le _ _
    _ = (l.dropWhile isPyWhitespace).length := by simp
    _ ≤ l.length := length_dropWhile_le _ _

/-- The length of the overlap seed `current_chunk[-chunk_overlap:] if
len(current_chunk) > chunk_overlap else current_chunk` is at most
`chunk_overlap`, provided `chunk_overlap ≥ 1`. -/
lemma overlap_length_le {co : Nat} (hco : 1 ≤ co) (current : List Char) :
    (if co < current.length then pyTail co current else current).length ≤ co := by
  by_cases h : co < current.length
  · simp only [h, if_true]
    unfold pyTail
    have hco0 : ¬ co = 0 := by omega
    simp only [hco0, if_false, List.length_drop]
    omega
  · simp only [h, if_false]
    omega

/-- Flushing the buffer (`chunks.append(current_chunk.strip())` guarded
by `len(current_chunk) >= min_chunk_size`) preserves the invariant. -/
lemma flush_sound {cs co mcs : Nat} {chunks : List (List Char)} {current : List Char}
    (hchunks : ∀ c ∈ chunks, chunkOK cs co mcs c)
    (hcur : current.length ≤ cs + co) :
    ∀ c ∈ (if mcs ≤ current.length then chunks ++ [pstrip current] else chunks),
      chunkOK cs co mcs c := by
  by_cases h : mcs ≤ current.length
  · simp only [h, if_true]
    intro c hc
    rcases List.mem_append.mp hc with hc | hc
    · exact hchunks c hc
    · rcases List.mem_singleton.mp hc with rfl
      refine ⟨le_trans (pstrip_length_le current) hcur, current, rfl, h⟩
  · simp only [h, if_false]
    exact hchunks

/-- Invariant of the accumulation loop at one separator level. -/
lemma rsLevel_sound (cs co mcs : Nat) (hco : 1 ≤ co) (sep : List Char)
    (recurse : List Char → List (List Char)) (canRecurse : Bool)
    (hrec : canRecurse = true → ∀ piece c, c ∈ recurse piece → chunkOK cs co mcs c) :
    ∀ pieces : List (List Char),
      (canRecurse = false →
        ∀ s ∈ pieces, (if sep.isEmpty then s else s ++ sep).length ≤ cs) →
    ∀ chunks current,
      (∀ c ∈ chunks, chunkOK cs co mcs c) → current.length ≤ cs + co →
      ∀ c ∈ rsLevel cs co mcs sep recurse canRecurse pieces chunks current,
        chunkOK cs co mcs c := by
  intro pieces
  induction pieces with
  | nil =>
    intro _ chunks current hchunks hcur
    simpa only [rsLevel] using flush_sound hchunks hcur
  | cons split rest ih =>
    intro hpieces chunks current hchunks hcur
    have hpieces' : canRecurse = false →
        ∀ s ∈ rest, (if sep.isEmpty then s else s ++ sep).length ≤ cs := by
      intro hfalse s hs
      exact hpieces hfalse s (List.mem_cons_of_mem _ hs)
    have hpieceTop := fun hcr => hpieces hcr split (List.mem_cons_self _ _)
    simp only [rsLevel]
    generalize hp : (if sep.isEmpty = true then split else split ++ sep) = piece
    rw [hp] at hpieceTop
    split
    · split
      · rename_i hbig hrecb
        refine ih hpieces' _ [] ?_ (by simp)
        intro c hc
        rcases List.mem_append.mp hc with hc | hc
        · exact flush_sound hchunks hcur c hc
        · exact hrec hrecb.2 _ c hc
      · rename_i hbig hrecb
        have hpiece : piece.length ≤ cs := by
          cases hcr : canRecurse with
          | true =>
            rw [hcr] at hrecb
            by_contra hlt
            exact hrecb ⟨lt_of_not_le hlt, rfl⟩
          | false =>
            exact hpieceTop hcr
        refine ih hpieces' _ _ (flush_sound hchunks hcur) ?_
        have := overlap_length_le hco current
        simp only [List.length_append]
        omega
    · rename_i hbig
      refine ih hpieces' chunks _ hchunks ?_
      simp only [List.length_append]
      omega

/-- Invariant of `_recursive_split` for any separator hierarchy whose
final fallback is the empty separator (character-level split), as the
default hierarchy's is. -/
lemma rsplit_sound (cs co mcs : Nat) (hcs : 1 ≤ cs) (hco : 1 ≤ co) :
    ∀ seps : List (List Char), seps.getLast? = some [] →
    ∀ text : List Char, ∀ c ∈ rsplit cs co mcs seps text, chunkOK cs co mcs c := by
  intro seps
  induction seps with
  | nil => intro h; simp at h
  | cons sep rest ih =>
    intro hlast text
    cases rest with
    | nil =>
      have hsep : sep = [] := by simpa using hlast
      subst hsep
      simp only [rsplit, List.isEmpty_nil, Bool.not_true]
      refine rsLevel_sound cs co mcs hco [] _ false (by simp) _ ?_ [] []
        (by simp) (by simp)
      intro _ s hs
      simp only [pySplit, List.isEmpty_nil, if_true] at hs
      rcases List.mem_map.mp hs with ⟨a, _, rfl⟩
      simpa using hcs
    | cons sep2 rest2 =>
      have hlast' : (sep2 :: rest2).getLast? = some [] := by
        rwa [List.getLast?_cons_cons] at hlast
      simp only [rsplit, List.isEmpty_cons, Bool.not_false]
      refine rsLevel_sound cs co mcs hco sep _ true ?_ _ (by simp) [] []
        (by simp) (by simp)
      intro _ piece c hc
      exact ih hlast' piece c hc

/-! ## Claim C1 -/

/-- A concrete input on which the chunker violates the stated bounds:
with `chunk_size = 10`, `chunk_overlap = 5`, `min_chunk_size = 1`, the
split of this 20-character text contains the chunk `"aaaa bbbbbbbb"`
(13 characters, exceeding `chunk_size` although every atomic unit fits
into a chunk and the character-level separator is never reached) and
the chunk `""` (0 characters, below `min_chunk_size`, flushed from the
buffer `" "` of length 1 which `strip()` then empties). -/
def c1Text : List Char := "aaaaaaaa bbbbbbbb cc".toList

/-- C1 counterexample: the recursive split returns a chunk strictly
longer than `chunkSize` (without any character-level recursion) and a
chunk strictly shorter than `minChunkSize`, refuting the claimed `≤
chunkSize` and `≥ minChunkSize` bounds. -/
theorem C1_counterexample :
    (recursiveSplit 10 5 1 c1Text).any (fun c => decide (10 < c.length)) = true
    ∧ (recursiveSplit 10 5 1 c1Text).any (fun c => decide (c.length < 1)) = true := by
  decide

/-- C1 (amended): for `chunkSize ≥ 1` and `chunkOverlap ≥ 1`, every
string returned by the chunker's recursive split is at most
`chunkSize + chunkOverlap` characters long (the overlap seeded into a
fresh buffer can push a chunk past `chunkSize`), and is the
whitespace-strip of an accumulated buffer of length at least
`minChunkSize` (so the returned string itself may fall below
`minChunkSize` only by whitespace stripping); any accumulated buffer
shorter than `minChunkSize` is dropped rather than returned. -/
theorem C1_amended_bounds (cs co mcs : Nat) (hcs : 1 ≤ cs) (hco : 1 ≤ co)
    (text : List Char) :
    ∀ c ∈ recursiveSplit cs co mcs text,
      c.length ≤ cs + co ∧ ∃ b : List Char, c = pstrip b ∧ mcs ≤ b.length :=
  fun c hc =>
    rsplit_sound cs co mcs hcs hco defaultSeparators (by decide) text c hc

/-- Witness for C1: the amended bound evaluated on a concrete split. -/
theorem C1_amended_bounds_witness :
    "hello".toList.length ≤ 10 + 5
    ∧ ∃ b : List Char, "hello".toList = pstrip b ∧ 1 ≤ b.length :=
  C1_amended_bounds 10 5 1 (by decide) (by decide) "hello".toList
    "hello".toList (by decide)

/-! ## Claim C8: termination of the recursive split -/

/-- The accumulation loop with a fallible recursive splitter: `none`
models a recursive call that fails to terminate within its budget. -/
def rsLevelFuel (cs co mcs : Nat) (sep : List Char)
    (recurse : List Char → Option (List (List Char))) (canRecurse : Bool) :
    List (List Char) → List (List Char) → List Char → Option (List (List Char))
  | [], chunks, current =>
    some (if mcs ≤ current.length then chunks ++ [pstrip current] else chunks)
  | split :: rest, chunks, current =>
    let piece := if sep.isEmpty then split else split ++ sep
    if cs < current.length + piece.length then
      let chunks1 := if mcs ≤ current.length then chunks ++ [pstrip current] else chunks
      if cs < piece.length ∧ canRecurse then
        match recurse piece with
        | none => none
        | some sub => rsLevelFuel cs co mcs sep recurse canRecurse rest (chunks1 ++ sub) []
      else
        let overlap := if co < current.length then pyTail co current else current
        rsLevelFuel cs co mcs sep recurse canRecurse rest chunks1 (overlap ++ piece)
    else
      rsLevelFuel cs co mcs sep recurse canRecurse rest chunks (current ++ piece)

/-- `_recursive_split` with an explicit recursion budget: each
recursive call into the finer separator hierarchy consumes one unit of
fuel, and `none` is returned when the budget is exhausted.  This models
the unbounded Python recursion; termination of the real function is the
statement that a budget of `separators.length` always suffices. -/
def rsplitFuel (cs co mcs : Nat) : Nat → List (List Char) → List Char →
    Option (List (List Char))
  | 0, _, _ => none
  | _ + 1, [], _ => some []
  | fuel + 1, sep :: rest, text =>
    rsLevelFuel cs co mcs sep (rsplitFuel cs co mcs fuel rest) (!rest.isEmpty)
      (pySplit sep text) [] []

lemma rsLevelFuel_eq (cs co mcs : Nat) (sep : List Char)
    (recurseF : List Char → Option (List (List Char)))
    (recurse : List Char → List (List Char))
    (h : ∀ p, recurseF p = some (recurse p)) (canRecurse : Bool) :
    ∀ pieces chunks current,
      rsLevelFuel cs co mcs sep recurseF canRecurse pieces chunks current
        = some (rsLevel cs co mcs sep recurse canRecurse pieces chunks current) := by
  intro pieces
  induction pieces with
  | nil => intro chunks current; rfl
  | cons split rest ih =>
    intro chunks current
    simp only [rsLevelFuel, rsLevel, h]
    split_ifs
    all_goals exact ih _ _

lemma rsplitFuel_eq (cs co mcs : Nat) :
    ∀ (seps : List (List Char)) (fuel : Nat), seps.length < fuel →
    ∀ text, rsplitFuel cs co mcs fuel seps text = some (rsplit cs co mcs seps text) := by
  intro seps
  induction seps with
  | nil =>
    intro fuel hfuel text
    cases fuel with
    | zero => omega
    | succ f => rfl
  | cons sep rest ih =>
    intro fuel hfuel text
    cases fuel with
    | zero => omega
    | succ f =>
      simp only [rsplitFuel, rsplit]
      exact rsLevelFuel_eq cs co mcs sep _ _
        (fun p => ih f (by simpa using hfuel) p) _ _ _ _

/-- C8: the recursive split is total.  (i) Any recursion budget
exceeding the length of the separator hierarchy is enough: the fuelled
splitter never exhausts it and agrees with the total function — each
recursive call receives the strictly shorter tail of the separator
list.  (ii) At the final empty-separator level the text is split into
individual characters.  (iii) At a final level (empty `new_separators`,
as for the `""` separator in the default hierarchy) the loop never
invokes its recursive splitter: its result does not depend on it. -/
theorem C8_split_terminates (cs co mcs : Nat) (seps : List (List Char)) (fuel : Nat)
    (hfuel : seps.length < fuel) (text : List Char) :
    rsplitFuel cs co mcs fuel seps text = some (rsplit cs co mcs seps text)
    ∧ (∀ s ∈ pySplit [] text, s.length = 1)
    ∧ (∀ (r1 r2 : List Char → List (List Char)) (sep : List Char)
        (pieces chunks : List (List Char)) (current : List Char),
        rsLevel cs co mcs sep r1 false pieces chunks current
          = rsLevel cs co mcs sep r2 false pieces chunks current) := by
  refine ⟨rsplitFuel_eq cs co mcs seps fuel hfuel text, ?_, ?_⟩
  · intro s hs
    simp only [pySplit, List.isEmpty_nil, if_true] at hs
    rcases List.mem_map.mp hs with ⟨a, _, rfl⟩
    rfl
  · intro r1 r2 sep pieces
    induction pieces with
    | nil => intro chunks current; rfl
    | cons split rest ih =>
      intro chunks current
      simp only [rsLevel]
      split_ifs
      all_goals try exact ih _ _
      all_goals simp_all

/-- Witness for C8: the fuelled splitter at budget 6 computes the split
of a concrete text over the 5-level default hierarchy. -/
theorem C8_split_terminates_witness :
    rsplitFuel 10 5 1 6 defaultSeparators "ab cd".toList
      = some (rsplit 10 5 1 defaultSeparators "ab cd".toList)
    ∧ (∀ s ∈ pySplit [] "ab cd".toList, s.length = 1)
    ∧ (∀ (r1 r2 : List Char → List (List Char)) (sep : List Char)
        (pieces chunks : List (List Char)) (current : List Char),
        rsLevel 10 5 1 sep r1 false pieces chunks current
          = rsLevel 10 5 1 sep r2 false pieces chunks current) :=
  C8_split_terminates 10 5 1 defaultSeparators 6 (by decide) "ab cd".toList

/-! ## The retrieval agent's dedup and rerank
(`src/agents/retrieval_agent.py`) -/

/-- A candidate chunk as handled by `RetrievalAgent`: a dict whose
fields relevant to dedup/rerank are the optional `chunk_id` and `id`
keys and the `content`; equality is Python dict equality restricted to
the modelled fields. -/
structure Chunk where
  chunk_id : Option String
  id : Option String
  content : String
deriving DecidableEq

/-- `chunk.get("chunk_id", chunk.get("id", ""))` from
`RetrievalAgent._deduplicate_chunks`. -/
def chunkKey (c : Chunk) : String := c.chunk_id.getD (c.id.getD "")

/-- The loop of `_deduplicate_chunks`: `seen` is the set of keys
already kept. -/
def dedupGo (seen : List String) : List Chunk → List Chunk
  | [] => []
  | c :: rest =>
    if chunkKey c ∈ seen then dedupGo seen rest
    else c :: dedupGo (chunkKey c :: seen) rest

/-- `RetrievalAgent._deduplicate_chunks`. -/
def deduplicateChunks (chunks : List Chunk) : List Chunk := dedupGo [] chunks

/-- The `seen` set after the dedup loop has consumed a list of chunks. -/
def seenAfter (seen : List String) : List Chunk → List String
  | [] => seen
  | c :: rest =>
    if chunkKey c ∈ seen then seenAfter seen rest
    else seenAfter (chunkKey c :: seen) rest

/-- `self.rerank_top_k` of `RetrievalAgent`. -/
def rerankTopK : Nat := 5

/-- The first loop of `_rerank_chunks`: collect `chunks[idx]` for each
ranked index `idx` with `0 <= idx < len(chunks)`, ignoring the rest. -/
def buildReranked (chunks : List Chunk) (ranking : List Int) : List Chunk :=
  ranking.filterMap
    (fun i => if 0 ≤ i ∧ i < (chunks.length : Int) then chunks[i.toNat]? else none)

/-- The second loop of `_rerank_chunks`: append every chunk not already
present in the (growing) reranked list. -/
def addMissing (acc : List Chunk) : List Chunk → List Chunk
  | [] => acc
  | c :: rest => if c ∈ acc then addMissing acc rest else addMissing (acc ++ [c]) rest

/-- `RetrievalAgent._rerank_chunks`.  The completion capability's reply
is abstracted into `parsed`: `some ranking` when the LLM call succeeded
and `[int(x.strip()) for x in response.split(',')]` parsed, `none` when
the call or the parse raised (the `except` path, which returns the
input unchanged).  When at most `rerank_top_k` chunks are given no LLM
call is made and the input is returned unchanged. -/
def rerankChunks (chunks : List Chunk) (parsed : Option (List Int)) : List Chunk :=
  if chunks.isEmpty then []
  else if chunks.length ≤ rerankTopK then chunks
  else
    match parsed with
    | none => chunks
    | some ranking => addMissing (buildReranked chunks ranking) chunks

/-! ## Claim C10: deduplication of id-less chunks -/

lemma dedupGo_append (xs : List Chunk) :
    ∀ (seen : List String) (l : List Chunk),
      dedupGo seen (xs ++ l) = dedupGo seen xs ++ dedupGo (seenAfter seen xs) l := by
  induction xs with
  | nil => intro seen l; rfl
  | cons c rest ih =>
    intro seen l
    by_cases h : chunkKey c ∈ seen
    · simp only [List.cons_append, dedupGo, seenAfter, h, if_true, List.append_eq, ih]
    · simp only [List.cons_append, dedupGo, seenAfter, h, if_false, List.append_eq, ih,
        List.cons_append]

lemma seenAfter_mono (xs : List Chunk) :
    ∀ (s : List String) (k : String), k ∈ s → k ∈ seenAfter s xs := by
  induction xs with
  | nil => intro _ _ hk; exact hk
  | cons b r ihr =>
    intro s k hk
    by_cases hb : chunkKey b ∈ s
    · simp only [seenAfter, hb, if_true]; exact ihr _ _ hk
    · simp only [seenAfter, hb, if_false]
      exact ihr _ _ (List.mem_cons_of_mem _ hk)

lemma mem_seenAfter (xs : List Chunk) :
    ∀ (seen : List String) (c : Chunk), c ∈ xs → chunkKey c ∈ seenAfter seen xs := by
  induction xs with
  | nil => intro _ _ h; simp at h
  | cons a rest ih =>
    intro seen c hc
    rcases List.mem_cons.mp hc with rfl | hc
    · by_cases h : chunkKey c ∈ seen
      · simp only [seenAfter, h, if_true]; exact seenAfter_mono _ _ _ h
      · simp only [seenAfter, h, if_false]
        exact seenAfter_mono _ _ _ (List.mem_cons_self _ _)
    · by_cases h : chunkKey a ∈ seen
      · simp only [seenAfter, h, if_true]; exact ih _ _ hc
      · simp only [seenAfter, h, if_false]; exact ih _ _ hc

/-- Keys of the deduplicated output are pairwise distinct and disjoint
from the incoming `seen` set. -/
lemma dedupGo_keys (l : List Chunk) :
    ∀ seen : List String,
      ((dedupGo seen l).map chunkKey).Nodup
      ∧ ∀ c ∈ dedupGo seen l, chunkKey c ∉ seen := by
  induction l with
  | nil => intro seen; exact ⟨List.nodup_nil, by simp [dedupGo]⟩
  | cons c rest ih =>
    intro seen
    by_cases h : chunkKey c ∈ seen
    · simpa only [dedupGo, h, if_true] using ih seen
    · simp only [dedupGo, h, if_false]
      obtain ⟨ihn, ihs⟩ := ih (chunkKey c :: seen)
      constructor
      · simp only [List.map_cons, List.nodup_cons]
        refine ⟨?_, ihn⟩
        intro hmem
        rcases List.mem_map.mp hmem with ⟨d, hd, hkey⟩
        exact ihs d hd (by rw [hkey]; exact List.mem_cons_self _ _)
      · intro d hd
        rcases List.mem_cons.mp hd with rfl | hd
        · exact h
        · intro hds
          exact ihs d hd (List.mem_cons_of_mem _ hds)

lemma countP_eq_key_le_one {o : List Chunk} (h : (o.map chunkKey).Nodup) (v : String) :
    o.countP (fun c => chunkKey c = v) ≤ 1 := by
  induction o with
  | nil => simp
  | cons c rest ih =>
    simp only [List.map_cons, List.nodup_cons] at h
    by_cases hc : chunkKey c = v
    · rw [List.countP_cons_of_pos _ _ (by simpa using hc)]
      have hz : rest.countP (fun c => chunkKey c = v) = 0 := by
        rw [List.countP_eq_zero]
        intro d hd
        simp only [decide_eq_true_eq]
        intro hdv
        exact h.1 (List.mem_map.mpr ⟨d, hd, by rw [hdv, ← hc]⟩)
      omega
    · rw [List.countP_cons_of_neg _ _ (by simpa using hc)]
      exact ih h.2

/-- C10: chunks with neither a `chunk_id` nor an `id` field all map to
the key `""`; the deduplicated output keeps at most one chunk with that
key; and a chunk whose key already occurred earlier in the list (in
particular any later id-less chunk, whatever its content) is discarded:
deleting it from the input does not change the output. -/
theorem C10_dedup_idless :
    (∀ c : Chunk, c.chunk_id = none → c.id = none → chunkKey c = "")
    ∧ (∀ l : List Chunk, (deduplicateChunks l).countP (fun c => chunkKey c = "") ≤ 1)
    ∧ (∀ (xs ys : List Chunk) (c : Chunk), (∃ c0 ∈ xs, chunkKey c0 = chunkKey c) →
        deduplicateChunks (xs ++ c :: ys) = deduplicateChunks (xs ++ ys)) := by
  refine ⟨?_, ?_, ?_⟩
  · intro c h1 h2
    simp [chunkKey, h1, h2]
  · intro l
    exact countP_eq_key_le_one (dedupGo_keys l []).1 ""
  · intro xs ys c ⟨c0, hc0, hkey⟩
    unfold deduplicateChunks
    rw [dedupGo_append, dedupGo_append]
    have hseen : chunkKey c ∈ seenAfter [] xs := by
      rw [← hkey]; exact mem_seenAfter xs [] c0 hc0
    simp only [dedupGo, hseen, if_true]

/-- Witness for C10 at concrete inputs: two id-less chunks with
different contents; only the first is kept. -/
theorem C10_dedup_idless_witness :
    chunkKey ⟨none, none, "alpha"⟩ = ""
    ∧ (deduplicateChunks [⟨none, none, "alpha"⟩, ⟨none, none, "beta"⟩]).countP
        (fun c => chunkKey c = "") ≤ 1
    ∧ deduplicateChunks
        ([⟨none, none, "alpha"⟩] ++ (⟨none, none, "beta"⟩ : Chunk) :: [])
        = deduplicateChunks ([⟨none, none, "alpha"⟩] ++ []) :=
  ⟨C10_dedup_idless.1 _ rfl rfl,
   C10_dedup_idless.2.1 _,
   C10_dedup_idless.2.2 _ _ _ ⟨⟨none, none, "alpha"⟩, by simp, rfl⟩⟩

/-! ## Claim C2: rerank is a permutation of its input -/

/-- The predicate deciding whether a ranked index is in `[0, n)`. -/
def inRangeIdx (n : Nat) (i : Int) : Bool := decide (0 ≤ i ∧ i < (n : Int))

lemma mem_of_mem_buildReranked {chunks : List Chunk} {r : List Int} {c : Chunk}
    (h : c ∈ buildReranked chunks r) : c ∈ chunks := by
  rcases List.mem_filterMap.mp h with ⟨i, _, hi⟩
  by_cases hr : 0 ≤ i ∧ i < (chunks.length : Int)
  · rw [if_pos hr] at hi
    exact List.getElem?_mem hi
  · rw [if_neg hr] at hi
    exact absurd hi (by simp)

lemma nodup_buildReranked {chunks : List Chunk} (hch : chunks.Nodup) :
    ∀ r : List Int, (r.filter (inRangeIdx chunks.length)).Nodup →
      (buildReranked chunks r).Nodup := by
  intro r
  induction r with
  | nil => intro _; simp [buildReranked]
  | cons i rest ih =>
    intro hr
    by_cases hin : 0 ≤ i ∧ i < (chunks.length : Int)
    · have hb : inRangeIdx chunks.length i = true := by
        simp only [inRangeIdx, decide_eq_true_eq]
        exact hin
      rw [List.filter_cons_of_pos hb] at hr
      simp only [List.nodup_cons] at hr
      have hlt : i.toNat < chunks.length := by omega
      simp only [buildReranked, List.filterMap_cons, if_pos hin,
        List.getElem?_eq_getElem hlt]
      refine List.nodup_cons.mpr ⟨?_, ih hr.2⟩
      intro hmem
      rcases List.mem_filterMap.mp hmem with ⟨j, hj, hjv⟩
      by_cases hjn : 0 ≤ j ∧ j < (chunks.length : Int)
      · rw [if_pos hjn] at hjv
        have hjlt : j.toNat < chunks.length := by omega
        rw [List.getElem?_eq_getElem hjlt] at hjv
        have := List.Nodup.getElem_inj_iff hch |>.mp
          (by simpa using hjv : chunks[j.toNat] = chunks[i.toNat])
        have hij : j = i := by omega
        subst hij
        exact hr.1 (List.mem_filter.mpr ⟨hj, hb⟩)
      · rw [if_neg hjn] at hjv
        exact absurd hjv (by simp)
    · have hb : inRangeIdx chunks.length i = false := by
        simp only [inRangeIdx, decide_eq_false_iff_not]
        exact hin
      rw [List.filter_cons_of_neg (by simp [hb])] at hr
      simpa only [buildReranked, List.filterMap_cons, if_neg hin] using ih hr

lemma mem_addMissing (l : List Chunk) :
    ∀ (acc : List Chunk) (x : Chunk), x ∈ addMissing acc l ↔ x ∈ acc ∨ x ∈ l := by
  induction l with
  | nil => intro acc x; simp [addMissing]
  | cons c rest ih =>
    intro acc x
    by_cases h : c ∈ acc
    · rw [show addMissing acc (c :: rest) = addMissing acc rest from by
        simp [addMissing, h]]
      rw [ih]
      constructor
      · rintro (hx | hx)
        · exact Or.inl hx
        · exact Or.inr (List.mem_cons_of_mem _ hx)
      · rintro (hx | hx)
        · exact Or.inl hx
        · rcases List.mem_cons.mp hx with rfl | hx
          · exact Or.inl h
          · exact Or.inr hx
    · rw [show addMissing acc (c :: rest) = addMissing (acc ++ [c]) rest from by
        simp [addMissing, h]]
      rw [ih]
      simp only [List.mem_append, List.mem_singleton, List.mem_cons]
      tauto

lemma nodup_addMissing (l : List Chunk) :
    ∀ acc : List Chunk, acc.Nodup → (addMissing acc l).Nodup := by
  induction l with
  | nil => intro acc h; exact h
  | cons c rest ih =>
    intro acc hacc
    by_cases h : c ∈ acc
    · rw [show addMissing acc (c :: rest) = addMissing acc rest from by
        simp [addMissing, h]]
      exact ih acc hacc
    · rw [show addMissing acc (c :: rest) = addMissing (acc ++ [c]) rest from by
        simp [addMissing, h]]
      refine ih _ ?_
      simp [List.nodup_append, hacc, h]

/-- C2 (amended): provided the candidate chunks are pairwise distinct
and the in-range indices of the parsed ranking are pairwise distinct,
the rerank step returns a permutation of its input (each input chunk
exactly once): out-of-range indices are ignored, omitted chunks are
appended, and an unparsable reply returns the input unchanged. -/
theorem C2_rerank_perm (chunks : List Chunk) (parsed : Option (List Int))
    (hnd : chunks.Nodup)
    (hr : ∀ r ∈ parsed, (r.filter (inRangeIdx chunks.length)).Nodup) :
    (rerankChunks chunks parsed).Perm chunks ∧ rerankChunks chunks none = chunks := by
  constructor
  · unfold rerankChunks
    by_cases hempty : chunks.isEmpty
    · rw [if_pos hempty]
      rw [List.isEmpty_iff.mp hempty]
    · rw [if_neg hempty]
      by_cases hlen : chunks.length ≤ rerankTopK
      · rw [if_pos hlen]
      · rw [if_neg hlen]
        cases parsed with
        | none => exact List.Perm.refl _
        | some ranking =>
          have hbuild := nodup_buildReranked hnd ranking (hr ranking rfl)
          have hout : (addMissing (buildReranked chunks ranking) chunks).Nodup :=
            nodup_addMissing _ _ hbuild
          refine List.perm_of_nodup_nodup_toFinset_eq hout hnd ?_
          ext x
          simp only [List.mem_toFinset, mem_addMissing]
          constructor
          · rintro (hx | hx)
            · exact mem_of_mem_buildReranked hx
            · exact hx
          · exact Or.inr
  · unfold rerankChunks
    by_cases hempty : chunks.isEmpty
    · rw [if_pos hempty, List.isEmpty_iff.mp hempty]
    · rw [if_neg hempty]
      by_cases hlen : chunks.length ≤ rerankTopK
      · rw [if_pos hlen]
      · rw [if_neg hlen]

/-- Six pairwise-distinct candidate chunks, enough to trigger the
rerank LLM call (`len(chunks) > rerank_top_k = 5`). -/
def c2Chunks : List Chunk :=
  [⟨some "0", none, "x0"⟩, ⟨some "1", none, "x1"⟩, ⟨some "2", none, "x2"⟩,
   ⟨some "3", none, "x3"⟩, ⟨some "4", none, "x4"⟩, ⟨some "5", none, "x5"⟩]

/-- C2 counterexample: a syntactically valid model reply that repeats
index 0 (`"0,0,1,2,3,4,5"`) makes chunk 0 appear twice in the output,
so the rerank output is not always a list in which every input chunk
appears exactly once. -/
theorem C2_counterexample :
    (⟨some "0", none, "x0"⟩ : Chunk) ∈ c2Chunks
    ∧ (rerankChunks c2Chunks (some [0, 0, 1, 2, 3, 4, 5])).count
        ⟨some "0", none, "x0"⟩ = 2 := by
  constructor
  · simp [c2Chunks]
  · decide

/-- Witness for C2: the rerank output for ranking `[3, 1]` over the six
concrete chunks is a permutation of the input; parse failure returns
the input unchanged. -/
theorem C2_rerank_perm_witness :
    (rerankChunks c2Chunks (some [3, 1])).Perm c2Chunks
    ∧ rerankChunks c2Chunks none = c2Chunks :=
  C2_rerank_perm c2Chunks (some [3, 1]) (by decide)
    (fun r hr => by
      rw [Option.some_inj.mp hr.symm] at *
      decide)

/-! ## The cache service (`src/services/cache_service.py`)

The three SQLite tables are modelled as association lists keyed by
their primary keys; `datetime.utcnow()` is an abstract `Nat` instant
passed explicitly; the JSON payloads are opaque strings
(`json.dumps`/`json.loads` round-trip is modelled as the identity). -/

/-- A row of the `query_cache` table (minus `created_at`, which no
claim-relevant code path reads). -/
structure QueryEntry where
  response : String
  course_id : Option String
  expires_at : Option Nat
  hit_count : Nat
deriving DecidableEq

/-- The cache database. `queryCache` is keyed by `cache_key`,
`embeddingCache` by `text_hash`, `graphCache` by `course_id`. -/
structure CacheState where
  queryCache : List (String × QueryEntry)
  embeddingCache : List (String × String)
  graphCache : List (String × String)
deriving DecidableEq

/-- SQL `SELECT ... WHERE key = ?` on a table with `key` as primary
key. -/
def dbLookup {E : Type} (k : String) : List (String × E) → Option E
  | [] => none
  | (k0, e) :: t => if k0 = k then some e else dbLookup k t

/-- `CacheService._generate_cache_key`: the pre-hash key string
`f"{query}:{course_id or 'all'}"` (the SHA-256 hex digest is modelled
as the identity on key strings; note Python's `or` sends the empty
string to `'all'` as well as `None`). -/
def generateCacheKey (query : String) (courseId : Option String) : String :=
  query ++ ":" ++ (match courseId with
    | some s => if s = "" then "all" else s
    | none => "all")

/-- The SQL condition `expires_at IS NULL OR expires_at > now`. -/
def expiryOK : Option Nat → Nat → Bool
  | none, _ => true
  | some x, now => decide (now < x)

/-- `CacheService.get_cached_response`: look the key up, requiring the
row to be unexpired at read time; on a hit, additionally increment the
row's `hit_count`.  Returns the payload (or `None`) and the updated
database. -/
def getCachedResponse (st : CacheState) (now : Nat) (query : String)
    (courseId : Option String) : Option String × CacheState :=
  let key := generateCacheKey query courseId
  match dbLookup key st.queryCache with
  | some e =>
    if expiryOK e.expires_at now then
      let bump := fun (p : String × QueryEntry) =>
        if p.1 = key then (p.1, { p.2 with hit_count := p.2.hit_count + 1 }) else p
      (some e.response, { st with queryCache := st.queryCache.map bump })
    else (none, st)
  | none => (none, st)

/-- `CacheService.default_ttl = timedelta(hours=24)`, in seconds. -/
def defaultTTL : Nat := 24 * 60 * 60

/-- `CacheService.cache_response`: `INSERT OR REPLACE` of the row
`(cache_key, response, course_id, expires_at = now + (ttl or
default_ttl))`; the replaced row's `hit_count` reverts to its column
default 0. -/
def cacheResponse (st : CacheState) (now : Nat) (query : String) (response : String)
    (courseId : Option String) (ttl : Option Nat) : CacheState :=
  let key := generateCacheKey query courseId
  let t := ttl.getD defaultTTL
  { st with queryCache :=
      (key, { response := response, course_id := courseId,
              expires_at := some (now + t), hit_count := 0 })
        :: st.queryCache.filter (fun p => ¬ p.1 = key) }

/-- `CacheService.clear_course_cache`: `DELETE FROM query_cache WHERE
course_id = ?` and `DELETE FROM concept_graph_cache WHERE course_id =
?` (SQL equality: a `NULL` `course_id` matches no course). -/
def clearCourseCache (st : CacheState) (courseId : String) : CacheState :=
  { st with
    queryCache := st.queryCache.filter (fun p => ¬ p.2.course_id = some courseId),
    graphCache := st.graphCache.filter (fun p => ¬ p.1 = courseId) }

/-! ## Claim C3: TTL semantics of the query cache -/

/-- C3: after `Put(k, v, ttl)` at time `now0`, a `Get(k)` strictly
before `now0 + ttl` returns the cached payload, and a `Get(k)` at or
after `now0 + ttl` returns `None` with the database untouched (exactly
the not-found behaviour), because expiry is checked in the `SELECT`
itself. -/
theorem C3_ttl_get (st : CacheState) (now0 now1 : Nat) (q v : String)
    (cid : Option String) (ttl : Nat) (_httl : 0 < ttl) :
    ((now1 < now0 + ttl →
      (getCachedResponse (cacheResponse st now0 q v cid (some ttl)) now1 q cid).1
        = some v)
    ∧ (now0 + ttl ≤ now1 →
      getCachedResponse (cacheResponse st now0 q v cid (some ttl)) now1 q cid
        = (none, cacheResponse st now0 q v cid (some ttl)))) := by
  have hlook : dbLookup (generateCacheKey q cid)
      (cacheResponse st now0 q v cid (some ttl)).queryCache
      = some { response := v, course_id := cid,
               expires_at := some (now0 + ttl), hit_count := 0 } := by
    simp [cacheResponse, dbLookup]
  constructor
  · intro hbefore
    have hok : expiryOK (some (now0 + ttl)) now1 = true := by
      simp [expiryOK]; omega
    simp only [getCachedResponse, hlook, hok, if_true]
  · intro hafter
    have hok : expiryOK (some (now0 + ttl)) now1 = false := by
      simp [expiryOK]; omega
    simp only [getCachedResponse, hlook, hok, Bool.false_eq_true, if_false]

/-- Witness for C3 at concrete times: put at `t = 100` with `ttl = 50`,
read at `t = 149` (hit) and `t = 150` (miss). -/
theorem C3_ttl_get_witness :
    ((149 < 100 + 50 →
      (getCachedResponse
        (cacheResponse ⟨[], [], []⟩ 100 "q" "v" (some "course") (some 50)) 149 "q"
          (some "course")).1 = some "v")
    ∧ (100 + 50 ≤ 149 →
      getCachedResponse
        (cacheResponse ⟨[], [], []⟩ 100 "q" "v" (some "course") (some 50)) 149 "q"
          (some "course")
        = (none, cacheResponse ⟨[], [], []⟩ 100 "q" "v" (some "course") (some 50)))) :=
  C3_ttl_get ⟨[], [], []⟩ 100 149 "q" "v" (some "course") 50 (by decide)

/-! ## Claim C4: course-scoped eviction -/

/-- C4: `clear_course_cache(c)` keeps a `query_cache` or
`concept_graph_cache` row iff it was present before and is not tagged
with course `c` (rows tagged with a different course — or, for the
query cache, with no course — survive), and leaves the
`embedding_cache` untouched. -/
theorem C4_evict_by_course (st : CacheState) (c : String) :
    (clearCourseCache st c).embeddingCache = st.embeddingCache
    ∧ (∀ p : String × QueryEntry,
        p ∈ (clearCourseCache st c).queryCache
          ↔ p ∈ st.queryCache ∧ ¬ p.2.course_id = some c)
    ∧ (∀ p : String × String,
        p ∈ (clearCourseCache st c).graphCache
          ↔ p ∈ st.graphCache ∧ ¬ p.1 = c) := by
  refine ⟨rfl, ?_, ?_⟩
  · intro p
    simp [clearCourseCache, List.mem_filter]
  · intro p
    simp [clearCourseCache, List.mem_filter]

/-! ## The second retrieval agent (`agents/retrieval_agent.py`) -/

/-- A vector-store search result as consumed by
`agents/retrieval_agent.py`: the claims only read `r.get("score", 0)`
(absent key modelled as `none`); `doc` stands for the remaining
payload. -/
structure SearchResult where
  score : Option ℚ
  doc : String
deriving DecidableEq

/-- `self.min_score = 0.5`. -/
def minScore : ℚ := 1/2

/-- `r.get("score", 0)`. -/
def scoreD (r : SearchResult) : ℚ := r.score.getD 0

/-- The filtering step of `RetrievalAgent.process`
(`agents/retrieval_agent.py` lines 52–61): keep results with score at
least `min_score`; if that keeps nothing while results existed, fall
back to the first three unfiltered results. -/
def retrievalProcessFilter (results : List SearchResult) : List SearchResult :=
  let filtered := results.filter (fun r => minScore ≤ scoreD r)
  if filtered.isEmpty ∧ ¬ results.isEmpty then results.take 3 else filtered

/-! ## Claim C5 -/

/-- C5: results scoring below `min_score = 0.5` are filtered out; when
the filter keeps at least one result, exactly the filtered list is
returned; when it removes everything from a non-empty result list, the
first 3 unfiltered results are returned; an empty result list stays
empty. -/
theorem C5_threshold_fallback (results : List SearchResult) :
    ((∃ r ∈ results, minScore ≤ scoreD r) →
      retrievalProcessFilter results
        = results.filter (fun r => minScore ≤ scoreD r))
    ∧ ((∀ r ∈ results, scoreD r < minScore) → results ≠ [] →
      retrievalProcessFilter results = results.take 3)
    ∧ retrievalProcessFilter [] = [] := by
  refine ⟨?_, ?_, rfl⟩
  · intro ⟨r, hr, hscore⟩
    unfold retrievalProcessFilter
    rw [if_neg]
    intro ⟨hempty, _⟩
    rw [List.isEmpty_iff] at hempty
    have : r ∈ results.filter (fun r => minScore ≤ scoreD r) :=
      List.mem_filter.mpr ⟨hr, by simpa using hscore⟩
    rw [hempty] at this
    simp at this
  · intro hall hne
    unfold retrievalProcessFilter
    rw [if_pos]
    refine ⟨?_, by simpa using hne⟩
    rw [List.isEmpty_iff, List.filter_eq_nil_iff]
    intro r hr
    simpa using not_le.mpr (hall r hr)

/-- The spec's concrete example `[{score: 0.3}, {score: 0.2},
{score: 0.1}]`, all below `min_score`. -/
def c5Results : List SearchResult :=
  [⟨some (3/10), "a"⟩, ⟨some (2/10), "b"⟩, ⟨some (1/10), "c"⟩]

/-- Witness for C5: on the spec's all-below-threshold example the stage
returns the whole (3-element) list instead of nothing. -/
theorem C5_threshold_fallback_witness :
    retrievalProcessFilter c5Results = c5Results.take 3 :=
  (C5_threshold_fallback c5Results).2.1
    (by
      intro r hr
      fin_cases hr <;> norm_num [scoreD, minScore])
    (by simp [c5Results])

/-! ## Answer structure and orchestrator response
(`agents/pedagogy_agent.py`, `agents/orchestrator.py`) -/

/-- The structured answer dict `{definition, explanation, example,
pitfalls}` (the field `example` is called `exampleStr` because
`example` is a Lean keyword); missing keys are modelled by their falsy
defaults. -/
structure Answer where
  definition : String
  explanation : String
  exampleStr : String
  pitfalls : List String
deriving DecidableEq

/-- The pipeline's `AgentContext` as read by
`AgentOrchestrator._format_response` (Python `None` defaults of list
fields are conflated with `[]`, matching every truthiness test the
function performs; `structured_answer or {}` keeps the `Option`). -/
structure AgentContext where
  retrieved_chunks : List SearchResult
  structured_answer : Option Answer
  sources : List String
  misconceptions : List String
  curriculum_alignment : ℚ
  related_concepts : List String
  confidence : ℚ
deriving DecidableEq

/-- The formatted response returned by
`AgentOrchestrator._format_response`. -/
structure FormattedResponse where
  answer : Answer
  sources : List String
  curriculum_alignment : ℚ
  misconception_warning : Option String
  related_concepts : List String
  confidence : ℚ
  has_course_material : Bool
deriving DecidableEq

/-- `AgentOrchestrator._format_response`. -/
def formatResponse (ctx : AgentContext) : FormattedResponse :=
  { answer := ctx.structured_answer.getD ⟨"", "", "", []⟩,
    sources := if ¬ ctx.retrieved_chunks.isEmpty then ctx.sources else [],
    curriculum_alignment := ctx.curriculum_alignment,
    misconception_warning := ctx.misconceptions.head?,
    related_concepts := ctx.related_concepts,
    confidence := if ctx.retrieved_chunks.isEmpty
      then min (ctx.confidence * (4/5)) (17/20) else ctx.confidence,
    has_course_material := ¬ ctx.retrieved_chunks.isEmpty }

/-! ## Claim C6 -/

/-- C6: with zero retrieved chunks the formatted response reports
`has_course_material = false`, and its confidence is the composer's
confidence dampened by the factor `0.8` and capped at `0.85` — in
particular it never exceeds `0.85`. -/
theorem C6_no_material_response (ctx : AgentContext)
    (h : ctx.retrieved_chunks = []) :
    (formatResponse ctx).has_course_material = false
    ∧ (formatResponse ctx).confidence = min (ctx.confidence * (4/5)) (17/20)
    ∧ (formatResponse ctx).confidence ≤ 17/20 := by
  refine ⟨?_, ?_, ?_⟩ <;> simp [formatResponse, h]

/-- Witness for C6 on a concrete context with composer confidence 1. -/
theorem C6_no_material_response_witness :
    (formatResponse ⟨[], none, [], [], 0, [], 1⟩).has_course_material = false
    ∧ (formatResponse ⟨[], none, [], [], 0, [], 1⟩).confidence
        = min ((1 : ℚ) * (4/5)) (17/20)
    ∧ (formatResponse ⟨[], none, [], [], 0, [], 1⟩).confidence ≤ 17/20 :=
  C6_no_material_response ⟨[], none, [], [], 0, [], 1⟩ rfl

/-! ## Claim C9: the composer's confidence score -/

/-- `PedagogyAgent._calculate_confidence`: base 0.5, plus
`0.2 * min(len(chunks)/5, 1)` when chunks were retrieved, plus 0.1 for
each non-empty definition/explanation and 0.05 for each non-empty
example/pitfalls, capped at 1.0. -/
def calculateConfidence (answer : Answer) (chunks : List SearchResult) : ℚ :=
  let c0 : ℚ := 1/2
  let c1 := if ¬ chunks.isEmpty then c0 + (1/5) * min ((chunks.length : ℚ) / 5) 1 else c0
  let c2 := if answer.definition ≠ "" then c1 + 1/10 else c1
  let c3 := if answer.explanation ≠ "" then c2 + 1/10 else c2
  let c4 := if answer.exampleStr ≠ "" then c3 + 1/20 else c3
  let c5 := if answer.pitfalls ≠ [] then c4 + 1/20 else c4
  min c5 1

/-- C9: the composer's confidence always lies in `[0.5, 1.0]`: the base
0.5 is never reduced, each added term is non-negative, and the sum is
capped at 1.0. -/
theorem C9_confidence_interval (answer : Answer) (chunks : List SearchResult) :
    1/2 ≤ calculateConfidence answer chunks ∧ calculateConfidence answer chunks ≤ 1 := by
  constructor
  · simp only [calculateConfidence]
    refine le_min ?_ (by norm_num)
    have hm : (0 : ℚ) ≤ min ((chunks.length : ℚ) / 5) 1 :=
      le_min (by positivity) (by norm_num)
    split_ifs <;> linarith
  · exact min_le_right _ _

/-! ## The verifier's excerpt (`agents/verification_agent.py`) -/

/-- Python `str.rfind(c)`: index of the last occurrence of `c`, `-1`
when absent. -/
def pyRfind (c : Char) : List Char → Int
  | [] => -1
  | a :: t =>
    if 0 ≤ pyRfind c t then pyRfind c t + 1
    else if a = c then 0 else -1

/-- The `"..."` appended on a word-boundary cut. -/
def ellipsis : List Char := ['.', '.', '.']

/-- `VerificationAgent._create_excerpt(text, max_length)`: texts within
the limit pass through; otherwise cut the `max_length`-prefix at the
last period when its index exceeds `max_length // 2`, else at the last
space (`rsplit(" ", 1)[0]`; the whole prefix when no space exists) with
an ellipsis appended. -/
def createExcerpt (maxLength : Nat) (text : List Char) : List Char :=
  if text.length ≤ maxLength then text
  else
    let truncated := text.take maxLength
    let lastPeriod := pyRfind '.' truncated
    if ((maxLength / 2 : Nat) : Int) < lastPeriod then
      truncated.take (lastPeriod.toNat + 1)
    else
      (if 0 ≤ pyRfind ' ' truncated then truncated.take (pyRfind ' ' truncated).toNat
       else truncated) ++ ellipsis

/-- The index of the last occurrence of a character, specified
recursively: the occurrence in the tail wins. -/
def lastIdxOf (c : Char) : List Char → Option Nat
  | [] => none
  | a :: t =>
    match lastIdxOf c t with
    | some k => some (k + 1)
    | none => if a = c then some 0 else none

/-- The excerpt rule in the (amended) spec's words: cut the truncated
prefix after the last period when that period sits in the second half
of the limit (index `> maxLength / 2`), otherwise cut before the last
space — keeping the whole prefix when it has no space — and append an
ellipsis. -/
def excerptSpec (maxLength : Nat) (text : List Char) : List Char :=
  if text.length ≤ maxLength then text
  else
    let truncated := text.take maxLength
    let wordCut := match lastIdxOf ' ' truncated with
      | some j => truncated.take j
      | none => truncated
    match lastIdxOf '.' truncated with
    | some k => if maxLength / 2 < k then truncated.take (k + 1) else wordCut ++ ellipsis
    | none => wordCut ++ ellipsis

lemma pyRfind_eq_lastIdxOf (c : Char) (l : List Char) :
    pyRfind c l = (match lastIdxOf c l with
      | some k => (k : Int)
      | none => -1) := by
  induction l with
  | nil => rfl
  | cons a t ih =>
    simp only [pyRfind, lastIdxOf, ih]
    cases h : lastIdxOf c t with
    | some k => simp [h]
    | none =>
      simp only [h]
      by_cases hac : a = c
      · simp [hac]
      · simp [hac]

/-! ## Claim C7 -/

/-- A 200-character text whose only (and hence last) period within the
first 150 characters sits at index 80. -/
def c7Text200 : List Char := List.replicate 80 'a' ++ '.' :: List.replicate 119 'b'

set_option maxRecDepth 16384 in
/-- C7 (amended): the excerpt equals the spec-level rule — cut at the
last period of the 150-character prefix whenever that period's index
exceeds `150 // 2 = 75` (not merely whenever a period exists),
otherwise cut at the last space and append an ellipsis — and on the
concrete 200-character text with its period at index 80 the excerpt is
exactly the first 81 characters. -/
theorem C7_excerpt_refines :
    (∀ (maxLength : Nat) (text : List Char),
      createExcerpt maxLength text = excerptSpec maxLength text)
    ∧ createExcerpt 150 c7Text200 = c7Text200.take 81 := by
  constructor
  · intro maxLength text
    by_cases hlen : text.length ≤ maxLength
    · simp [createExcerpt, excerptSpec, hlen]
    · simp only [createExcerpt, excerptSpec, if_neg hlen, pyRfind_eq_lastIdxOf]
      cases hp : lastIdxOf '.' (text.take maxLength) with
      | some k =>
        simp only
        by_cases hk : maxLength / 2 < k
        · rw [if_pos (by exact_mod_cast hk), if_pos hk]
          simp
        · rw [if_neg (by exact_mod_cast hk), if_neg hk]
          cases hs : lastIdxOf ' ' (text.take maxLength) with
          | some j => simp
          | none => simp
      | none =>
        have hneg : ¬ ((maxLength / 2 : Nat) : Int) < -1 := by
          have : (0 : Int) ≤ ((maxLength / 2 : Nat) : Int) := by positivity
          omega
        simp only [if_neg hneg]
        cases hs : lastIdxOf ' ' (text.take maxLength) with
        | some j => simp
        | none => simp
  · decide

/-- A 160-character text whose only period within the first 150
characters sits at index 4 (below the half-limit 75). -/
def c7CexText : List Char := "word. ".toList ++ List.replicate 154 'w'

set_option maxRecDepth 16384 in
/-- C7 counterexample: the last period of the truncated prefix exists
(at index 4), yet the excerpt is not cut at it — because its index does
not exceed `150 // 2`, the code takes the word-boundary branch and
returns the prefix before the last space plus an ellipsis. -/
theorem C7_counterexample :
    pyRfind '.' (c7CexText.take 150) = 4
    ∧ createExcerpt 150 c7CexText ≠ c7CexText.take 5
    ∧ createExcerpt 150 c7CexText = c7CexText.take 5 ++ ellipsis := by
  refine ⟨by decide, by decide, by decide⟩

end ReulerAI
